import Mathlib

/-!
Verification development for the catalog fuzzy-search relevance engine of the
`talk-ai-perf-demo-api` repository.  The engine lives in the products route
(the file registering `router.get('/search')`); this development gives a
shallow embedding of its pure scoring core:

* `calculateLevenshteinDistance` / `getPhoneticSimilarity` /
  `getKeyboardDistance` / `isVowel` — the multi-variant edit-distance stack;
* `calculateRelevanceScore` — edit distance to a relevance value;
* `calculateFinalScore` — the ScoreCombiner;
* the per-field matchCount accumulation of the smart-search loop;
* the result comparator and price post-filter of the `/search` handler.

Strings are embedded as `List Char`; JavaScript numbers are embedded as `ℚ`
where the source only performs field arithmetic (distances, comparator) and
as `ℝ` where it uses `Math.exp` / `Math.log` (relevance, final score).
JavaScript division by zero does not produce a real number, so the final
score is an `Option ℝ` with `none` standing for the non-finite results
(`Infinity` / `NaN`).
-/

namespace PerfDemo

/-- Embedding of `Math.min` on two rational values.  (Spelled out so that
the kernel can evaluate it on concrete inputs; equal to `min`, see
`jsMin_eq_min`.) -/
def jsMin (a b : ℚ) : ℚ := if a ≤ b then a else b

theorem jsMin_eq_min (a b : ℚ) : jsMin a b = min a b := by
  unfold jsMin
  rcases le_total a b with h | h
  · rw [if_pos h, min_eq_left h]
  · rcases lt_or_eq_of_le h with h' | h'
    · rw [if_neg (not_le.mpr h'), min_eq_right h]
    · simp [h']

/-- Embedding of the source's `isVowel`: membership in `'aeiouAEIOU'`. -/
def isVowel (c : Char) : Bool := "aeiouAEIOU".toList.contains c

/-- Position of a character in one keyboard row (`row.indexOf(char)`). -/
def rowIdx (c : Char) (row : List Char) : Option ℕ := row.findIdx? (· = c)

/-- Embedding of the row scan in `getKeyboardDistance`: the hardcoded QWERTY
rows are searched for the lowercased character; each character occurs in at
most one row, so first match and last match coincide. -/
def findKeyPos (c : Char) : Option (ℕ × ℕ) :=
  match rowIdx c.toLower "qwertyuiop".toList with
  | some j => some (0, j)
  | none =>
    match rowIdx c.toLower "asdfghjkl".toList with
    | some j => some (1, j)
    | none =>
      match rowIdx c.toLower "zxcvbnm".toList with
      | some j => some (2, j)
      | none => none

/-- Embedding of `getKeyboardDistance`: Manhattan distance on the QWERTY
grid, `5` when either character is not on the grid. -/
def getKeyboardDistance (c1 c2 : Char) : ℚ :=
  match findKeyPos c1, findKeyPos c2 with
  | some p, some q =>
    (((p.1 : ℤ) - q.1).natAbs : ℚ) + (((p.2 : ℤ) - q.2).natAbs : ℚ)
  | _, _ => 5

/-- Embedding of JavaScript `String.prototype.includes`: `pat` occurs as a
contiguous segment of `s`. -/
def hasSeg (pat s : List Char) : Bool :=
  (List.range (s.length + 1)).any fun i => (s.drop i).take pat.length == pat

/-- The fixed table of sound-alike letter-sequence pairs from
`getPhoneticSimilarity`. -/
def phoneticGroups : List (List Char × List Char) :=
  [("ph".toList, "f".toList), ("ck".toList, "k".toList),
   ("qu".toList, "kw".toList), ("x".toList, "ks".toList),
   ("wr".toList, "r".toList), ("kn".toList, "n".toList),
   ("gn".toList, "n".toList), ("wh".toList, "w".toList),
   ("gh".toList, "g".toList), ("mb".toList, "m".toList),
   ("ps".toList, "s".toList), ("pn".toList, "n".toList)]

/-- One iteration of the phonetic-group loop: each direction of a
sound-alike pair that matches multiplies the running cost by `0.8`. -/
def phonGroupStep (sub1 sub2 : List Char) (cost : ℚ) (pq : List Char × List Char) : ℚ :=
  let cost1 := if hasSeg pq.1 sub1 ∧ hasSeg pq.2 sub2 then cost * 0.8 else cost
  if hasSeg pq.1 sub2 ∧ hasSeg pq.2 sub1 then cost1 * 0.8 else cost1

/-- One iteration of the aligned-character loop: both-vowel positions
multiply the cost by `0.9`, and every position adds `0.1` times the keyboard
distance. -/
def phonCharStep (sub1 sub2 : List Char) (cost : ℚ) (i : ℕ) : ℚ :=
  let c1 := sub1.getD i ' '
  let c2 := sub2.getD i ' '
  let cost1 := if isVowel c1 ∧ isVowel c2 then cost * 0.9 else cost
  cost1 + getKeyboardDistance c1 c2 * 0.1

/-- Embedding of `getPhoneticSimilarity`: `10` when either substring is
empty (falsy), otherwise the length-difference base cost pushed through the
group loop and the aligned-character loop. -/
def getPhoneticSimilarity (sub1 sub2 : List Char) : ℚ :=
  if sub1 = [] ∨ sub2 = [] then 10
  else
    let base : ℚ := (((sub1.length : ℤ) - sub2.length).natAbs : ℚ)
    let afterGroups := phoneticGroups.foldl (phonGroupStep sub1 sub2) base
    (List.range (min sub1.length sub2.length)).foldl (phonCharStep sub1 sub2) afterGroups

/-- Fuel-indexed cell of the dynamic-programming matrix built inside
`calculateLevenshteinDistance` for one variant pair.  The source fills the
matrix iteratively; the recurrence here is the same cell equation
(insertion/deletion/substitution minimum, adjacent-transposition discount,
and the phonetic adjustment at positions where both indices are multiples of
three).  The first `ℕ` argument is structural-recursion fuel; the
`0, _ + 1, _ + 1` case is unreachable whenever the fuel is at least
`i + j` (see `levCell`). -/
def levCellF (s1 s2 : List Char) : ℕ → ℕ → ℕ → ℚ
  | _, 0, j => j
  | _, i + 1, 0 => (i : ℚ) + 1
  | 0, _ + 1, _ + 1 => 0
  | f + 1, i + 1, j + 1 =>
    let cost : ℚ := if s1.getD i ' ' = s2.getD j ' ' then 0 else 1
    let deletion := levCellF s1 s2 f i (j + 1) + 1
    let insertion := levCellF s1 s2 f (i + 1) j + 1
    let substitution := levCellF s1 s2 f i j + cost
    let base := jsMin (jsMin deletion insertion) substitution
    let withTrans :=
      if 0 < i ∧ 0 < j ∧ s1.getD i ' ' = s2.getD (j - 1) ' ' ∧
          s1.getD (i - 1) ' ' = s2.getD j ' ' then
        jsMin base (levCellF s1 s2 f (i - 1) (j - 1) + cost)
      else base
    if (i + 1) % 3 = 0 ∧ (j + 1) % 3 = 0 ∧ 2 < i + 1 ∧ 2 < j + 1 then
      jsMin withTrans (levCellF s1 s2 f (i + 1 - 3) (j + 1 - 3) +
        getPhoneticSimilarity ((s1.drop (i + 1 - 3)).take 3) ((s2.drop (j + 1 - 3)).take 3))
    else withTrans

/-- Cell `(i, j)` of the matrix: the fuel argument of `levCellF` only
bounds the recursion depth and `i + j` always suffices (every recursive
call lowers `i + j` by at least one while the fuel drops by exactly one),
so this wrapper computes exactly the source's cell value. -/
def levCell (s1 s2 : List Char) (i j : ℕ) : ℚ := levCellF s1 s2 (i + j) i j

/-- Embedding of `str.toLowerCase()`. -/
def jsToLower (s : List Char) : List Char := s.map Char.toLower

/-- Embedding of `str.replace(/[^a-zA-Z0-9]/g, '')`. -/
def stripNonAlnum (s : List Char) : List Char := s.filter fun c => c.isAlpha || c.isDigit

/-- Embedding of `calculateLevenshteinDistance`: empty-string and
identical-string short circuits, then the minimum of the DP value over the
three variant pairs (as given, lowercased, non-alphanumerics stripped). -/
def calculateLevenshteinDistance (str1 str2 : List Char) : ℚ :=
  if str1 = [] ∨ str2 = [] then ((max str1.length str2.length : ℕ) : ℚ)
  else if str1 = str2 then 0
  else
    let d1 := levCell str1 str2 str1.length str2.length
    let s1l := jsToLower str1
    let s2l := jsToLower str2
    let d2 := levCell s1l s2l s1l.length s2l.length
    let s1n := stripNonAlnum str1
    let s2n := stripNonAlnum str2
    let d3 := levCell s1n s2n s1n.length s2n.length
    jsMin (jsMin d1 d2) d3

/-- Embedding of `calculateRelevanceScore`: perfect-match short circuit,
zero-length guard, then exponential decay with a query-length bonus, capped
at `1`. -/
noncomputable def calculateRelevanceScore (distance : ℚ) (targetLength queryLength : ℕ) : ℝ :=
  if distance = 0 then 1
  else
    let maxLength := max targetLength queryLength
    if maxLength = 0 then 0
    else
      let normalizedDistance : ℝ := (distance : ℝ) / (maxLength : ℝ)
      let relevanceScore := Real.exp (-2 * normalizedDistance)
      let lengthBonus : ℝ := (queryLength : ℝ) / (maxLength : ℝ)
      min 1 (relevanceScore * (1 + lengthBonus * 0.2))

/-- Embedding of `calculateFinalScore` (the ScoreCombiner).  The source
computes `totalScore * (1 + matchCount * 0.1)`, divides by
`Math.log(queryLength + 1)`, multiplies by `1.2` when `matchCount > 2` and
clamps with `Math.max(0, ·)`.  When the normalizer is zero, JavaScript
division produces `Infinity` for a positive numerator, `-Infinity` for a
negative one and `NaN` for zero; the `1.2` boost keeps the sign, and
`Math.max(0, ·)` then returns `Infinity` (non-finite, embedded as `none`),
the finite `0` (embedded as `some 0`), and `NaN` (embedded as `none`)
respectively. -/
noncomputable def calculateFinalScore (totalScore : ℝ) (matchCount queryLength : ℕ) : Option ℝ :=
  let withMultiplier := totalScore * (1 + (matchCount : ℝ) * 0.1)
  let queryNormalizer := Real.log ((queryLength : ℝ) + 1)
  if queryNormalizer = 0 then
    if withMultiplier < 0 then some 0 else none
  else
    let normalized := withMultiplier / queryNormalizer
    let boosted := if matchCount > 2 then normalized * 1.2 else normalized
    some (max 0 boosted)

/-- Embedding of `str.trim()`. -/
def jsTrim (s : List Char) : List Char :=
  ((s.dropWhile Char.isWhitespace).reverse.dropWhile Char.isWhitespace).reverse

/-- Fuel-indexed splitter for `str.split(/\\s+/)`.  The regex literal in the
source is `/\\s+/`, which matches one literal backslash followed by one or
more letters `s` — not runs of whitespace.  Splitting follows JavaScript
`String.prototype.split` semantics: every match of the pattern cuts the
string, and a match at the start or end contributes an empty piece.  The
fuel only bounds the recursion and the string length always suffices. -/
def splitBackslashSF : ℕ → List Char → List (List Char)
  | _, [] => [[]]
  | 0, l => [l]
  | f + 1, '\\' :: 's' :: rest =>
    [] :: splitBackslashSF f (rest.dropWhile (· = 's'))
  | f + 1, c :: rest =>
    match splitBackslashSF f rest with
    | [] => [[c]]
    | t :: ts => (c :: t) :: ts

/-- Embedding of `str.split(/\\s+/)` (see `splitBackslashSF`). -/
def splitBackslashS (l : List Char) : List (List Char) := splitBackslashSF l.length l

/-- A product record as consumed by the `/search` route: `name` is always
present; `description`, `sku` and the linked category name are optional;
`tags` is optional to model a missing/non-array field.  The numeric `price`
stands for the already-parsed `parseFloat(p.price)` value. -/
structure ProductR where
  name : List Char
  description : Option (List Char)
  price : ℚ
  sku : Option (List Char)
  tags : Option (List (List Char))
  categoryName : Option (List Char)
deriving DecidableEq

/-- The `nameWords` computed by the smart-search loop:
`product.name.toLowerCase().split(/\\s+/)`. -/
def nameWords (p : ProductR) : List (List Char) := splitBackslashS (jsToLower p.name)

/-- matchCount contribution of the whole-name probe: one increment when the
name relevance exceeds `0.3`.  (The name-word and name-substring probes of
the same block add score but never touch `matchCount`.) -/
noncomputable def nameMatchCount (p : ProductR) (query : List Char) : ℕ :=
  let nameDistance := calculateLevenshteinDistance (jsTrim (jsToLower query)) (jsTrim (jsToLower p.name))
  let nameRelevance := calculateRelevanceScore nameDistance p.name.length query.length
  if nameRelevance > 0.3 then 1 else 0

/-- One iteration of the description-token loop as far as `matchCount` is
concerned: words longer than three characters whose relevance against the
lowercased query exceeds `0.4` increment the counter.  (The per-word
sub-window probe adds score but never touches `matchCount`.) -/
noncomputable def descWordStep (query : List Char) (acc : ℕ) (word : List Char) : ℕ :=
  if word.length > 3 then
    let wordDistance := calculateLevenshteinDistance (jsToLower query) word
    let wordRelevance := calculateRelevanceScore wordDistance word.length query.length
    if wordRelevance > 0.4 then acc + 1 else acc
  else acc

/-- matchCount contribution of the description block: one increment when
the whole-description relevance exceeds `0.2`, plus the increments of the
token loop over the first five description words. -/
noncomputable def descMatchCount (p : ProductR) (query : List Char) : ℕ :=
  match p.description with
  | none => 0
  | some d =>
    if d.length > 0 then
      let descDistance := calculateLevenshteinDistance (jsTrim (jsToLower query)) (jsTrim (jsToLower d))
      let descRelevance := calculateRelevanceScore descDistance d.length query.length
      let primary := if descRelevance > 0.2 then 1 else 0
      let importantWords := (splitBackslashS (jsToLower d)).take 5
      primary + importantWords.foldl (descWordStep query) 0
    else 0

/-- matchCount contribution of the category-name probe: one increment when
the relevance exceeds `0.3`; skipped when the category or its name is
absent (an empty name is falsy in the source's guard). -/
noncomputable def categoryMatchCount (p : ProductR) (query : List Char) : ℕ :=
  match p.categoryName with
  | none => 0
  | some n =>
    if n = [] then 0
    else
      let categoryDistance := calculateLevenshteinDistance (jsTrim (jsToLower query)) (jsTrim (jsToLower n))
      let categoryRelevance := calculateRelevanceScore categoryDistance n.length query.length
      if categoryRelevance > 0.3 then 1 else 0

/-- matchCount contribution of the SKU probe: one increment when the
relevance exceeds `0.4`; skipped when the SKU is absent or empty. -/
noncomputable def skuMatchCount (p : ProductR) (query : List Char) : ℕ :=
  match p.sku with
  | none => 0
  | some s =>
    if s = [] then 0
    else
      let skuDistance := calculateLevenshteinDistance (jsTrim (jsToLower query)) (jsTrim (jsToLower s))
      let skuRelevance := calculateRelevanceScore skuDistance s.length query.length
      if skuRelevance > 0.4 then 1 else 0

/-- One iteration of the tags loop as far as `matchCount` is concerned:
each tag whose relevance (both sides lowercased and trimmed) exceeds `0.4`
increments the counter. -/
noncomputable def tagStep (query : List Char) (acc : ℕ) (tag : List Char) : ℕ :=
  let tagDistance := calculateLevenshteinDistance (jsTrim (jsToLower query)) (jsTrim (jsToLower tag))
  let tagRelevance := calculateRelevanceScore tagDistance tag.length query.length
  if tagRelevance > 0.4 then acc + 1 else acc

/-- matchCount contribution of the tags loop: skipped when the tags field
is absent. -/
noncomputable def tagsMatchCount (p : ProductR) (query : List Char) : ℕ :=
  match p.tags with
  | none => 0
  | some ts => ts.foldl (tagStep query) 0

/-- The value of the smart-search loop's `matchCount` accumulator for one
product.  The source threads a single counter through the name,
description, category, SKU and tags blocks in this order; each block only
adds its own increments, so the accumulator equals the sum of the per-block
contributions. -/
noncomputable def smartMatchCount (p : ProductR) (query : List Char) : ℕ :=
  nameMatchCount p query + descMatchCount p query + categoryMatchCount p query +
    skuMatchCount p query + tagsMatchCount p query

/-- Truthiness of an optional query-string parameter: `undefined` and the
empty string are falsy. -/
def jsTruthy : Option (List Char) → Bool
  | none => false
  | some s => !s.isEmpty

/-- Digit-sequence value for `parseFloatQ`. -/
def digitsVal (l : List Char) : ℕ := l.foldl (fun acc c => acc * 10 + (c.toNat - '0'.toNat)) 0

/-- Fractional-part value for `parseFloatQ`. -/
def fracVal (l : List Char) : ℚ :=
  l.foldr (fun c acc => (((c.toNat - '0'.toNat : ℕ) : ℚ) + acc) / 10) 0

/-- Embedding of JavaScript `parseFloat` on decimal inputs: skip leading
whitespace, an optional sign, then a digit run with an optional fractional
part; trailing junk is ignored.  `none` embeds `NaN` (no digits at the
front).  (The exponent form `1e5` is not modelled; no input in this
development uses it.) -/
def parseFloatQ (s : List Char) : Option ℚ :=
  let s1 := s.dropWhile Char.isWhitespace
  let signRest : ℚ × List Char :=
    match s1 with
    | '-' :: r => (-1, r)
    | '+' :: r => (1, r)
    | _ => (1, s1)
  let intDigits := signRest.2.takeWhile Char.isDigit
  let afterInt := signRest.2.dropWhile Char.isDigit
  let fracDigits :=
    match afterInt with
    | '.' :: r => r.takeWhile Char.isDigit
    | _ => []
  if intDigits = [] ∧ fracDigits = [] then none
  else some (signRest.1 * ((digitsVal intDigits : ℚ) + fracVal fracDigits))

/-- JavaScript `x >= bound` where `bound` may be `NaN`: any comparison with
`NaN` is false. -/
def jsGEparse (price : ℚ) (bound : List Char) : Bool :=
  match parseFloatQ bound with
  | none => false
  | some b => decide (price ≥ b)

/-- JavaScript `x <= bound` where `bound` may be `NaN`. -/
def jsLEparse (price : ℚ) (bound : List Char) : Bool :=
  match parseFloatQ bound with
  | none => false
  | some b => decide (price ≤ b)

/-- Embedding of the price post-filter at the end of the `/search` handler:
`if (minPrice) results = results.filter(p => parseFloat(p.price) >= parseFloat(minPrice))`
and the symmetric `maxPrice` step. -/
def applyPriceFilters (minPrice maxPrice : Option (List Char)) (results : List ProductR) :
    List ProductR :=
  let r1 := if jsTruthy minPrice then results.filter (fun p => jsGEparse p.price (minPrice.getD [])) else results
  if jsTruthy maxPrice then r1.filter (fun p => jsLEparse p.price (maxPrice.getD [])) else r1

/-- A scored entry as seen by the result sorter: the fields the comparator
reads (`dataValues.searchScore`, `dataValues.matchCount`, `name`).  Scores
are rational here; the comparator logic is representation-independent. -/
structure RankedItem where
  searchScore : ℚ
  matchCount : ℕ
  name : List Char
deriving DecidableEq

/-- Embedding of `Math.abs` on `ℚ`. -/
def jsAbsQ (x : ℚ) : ℚ := if x < 0 then -x else x

/-- The inclusion rule of the smart-search loop: a scored product is pushed
when `finalScore > 0.1 || matchCount > 0`. -/
def keepResult (r : RankedItem) : Bool :=
  decide (r.searchScore > 1/10) || decide (r.matchCount > 0)

/-- Lexicographic string comparison modelling `a.name.localeCompare(b.name)`
on ASCII names: negative, zero or positive. -/
def localeCmp : List Char → List Char → ℤ
  | [], [] => 0
  | [], _ :: _ => -1
  | _ :: _, [] => 1
  | a :: as, b :: bs => if a < b then -1 else if b < a then 1 else localeCmp as bs

/-- Embedding of the sort comparator of the `/search` handler: score
difference when the scores differ by more than `0.01`, then match-count
difference, then `localeCompare` on names. -/
def searchComparator (a b : RankedItem) : ℚ :=
  if jsAbsQ (a.searchScore - b.searchScore) > 1/100 then b.searchScore - a.searchScore
  else if a.matchCount ≠ b.matchCount then (b.matchCount : ℚ) - (a.matchCount : ℚ)
  else (localeCmp a.name b.name : ℚ)

/-- The before-or-tied relation induced by the comparator (`cmp(a, b) ≤ 0`
means `a` sorts no later than `b`). -/
def SearchLe (a b : RankedItem) : Prop := searchComparator a b ≤ 0

instance : DecidableRel SearchLe :=
  fun a b => inferInstanceAs (Decidable (searchComparator a b ≤ 0))

/-- Default element for out-of-range list reads in the binary search; the
search only ever reads indices inside the probed window. -/
def dummyItem : RankedItem := ⟨0, 0, []⟩

/-- The binary-search loop of `BinaryInsertionSort` in V8's TimSort (the
engine behind Node 20's `Array.prototype.sort`): narrow the window
`[left, right)` with `mid = left + (right - left) / 2`, moving `right` down
when `comparefn(pivot, a[mid]) < 0` and `left` up past `mid` otherwise.
The first `ℕ` argument is structural-recursion fuel; `right - left` always
suffices, and the fuel-exhausted value is never reached from
`binaryInsert`. -/
def binSearchPos (a : List RankedItem) (pivot : RankedItem) : ℕ → ℕ → ℕ → ℕ
  | 0, left, _ => left
  | fuel + 1, left, right =>
    if right ≤ left then left
    else
      let mid := left + (right - left) / 2
      if searchComparator pivot (a.getD mid dummyItem) < 0 then
        binSearchPos a pivot fuel left mid
      else
        binSearchPos a pivot fuel (mid + 1) right

/-- One step of V8's binary insertion: find the pivot's position within the
sorted prefix by binary search and splice it in there. -/
def binaryInsert (run : List RankedItem) (pivot : RankedItem) : List RankedItem :=
  let pos := binSearchPos run pivot run.length 0 run.length
  run.take pos ++ pivot :: run.drop pos

/-- V8's `BinaryInsertionSort`: insert the pending elements, in order, into
the already-sorted run. -/
def binaryInsertAll : List RankedItem → List RankedItem → List RankedItem
  | run, [] => run
  | run, x :: rest => binaryInsertAll (binaryInsert run x) rest

/-- The extension loop of V8's `CountAndMakeRun` for a descending start:
keep consuming while `comparefn(next, prev) < 0` (strictly descending).
Returns the run continuing from `prev` (in input order) and the rest. -/
def descRun : RankedItem → List RankedItem → List RankedItem × List RankedItem
  | prev, [] => ([prev], [])
  | prev, x :: rest =>
    if searchComparator x prev < 0 then
      (prev :: (descRun x rest).1, (descRun x rest).2)
    else ([prev], x :: rest)

/-- The extension loop of V8's `CountAndMakeRun` for an ascending start:
keep consuming while `comparefn(next, prev) ≥ 0` (weakly ascending). -/
def ascRun : RankedItem → List RankedItem → List RankedItem × List RankedItem
  | prev, [] => ([prev], [])
  | prev, x :: rest =>
    if 0 ≤ searchComparator x prev then
      (prev :: (ascRun x rest).1, (ascRun x rest).2)
    else ([prev], x :: rest)

/-- Node 20's `Array.prototype.sort` (V8 TimSort) on arrays shorter than 64
elements.  For such arrays V8's computed minimal run length equals the
array length, so exactly one run is formed and the merge machinery is never
reached: `CountAndMakeRun` takes the maximal initial run — reversing it
when it starts strictly descending — and `BinaryInsertionSort` inserts
every remaining element into it in order. -/
def v8SmallSort : List RankedItem → List RankedItem
  | [] => []
  | [x] => [x]
  | x :: y :: rest =>
    if searchComparator y x < 0 then
      binaryInsertAll (x :: (descRun y rest).1).reverse (descRun y rest).2
    else
      binaryInsertAll (x :: (ascRun y rest).1) (ascRun y rest).2

/-- The ranking step of the `/search` handler: keep the entries passing the
inclusion rule and sort them with `Array.prototype.sort(comparator)`,
embedded by the V8 sort model above (faithful for result sets smaller than
64 entries). -/
def rankResults (l : List RankedItem) : List RankedItem :=
  v8SmallSort (l.filter keepResult)

/-! ### Helper lemmas -/

theorem jsMin_le_left (a b : ℚ) : jsMin a b ≤ a := by
  rw [jsMin_eq_min]; exact min_le_left a b

theorem jsMin_le_right (a b : ℚ) : jsMin a b ≤ b := by
  rw [jsMin_eq_min]; exact min_le_right a b

theorem jsMin_nonneg {a b : ℚ} (ha : 0 ≤ a) (hb : 0 ≤ b) : 0 ≤ jsMin a b := by
  rw [jsMin_eq_min]; exact le_min ha hb

set_option maxHeartbeats 1000000 in
/-- Every cell value is at most the substitution option: the source only
ever lowers a cell below `M[i-1][j-1] + cost` by taking further minima. -/
theorem levCellF_succ_le_sub (s1 s2 : List Char) (f i j : ℕ) :
    levCellF s1 s2 (f + 1) (i + 1) (j + 1) ≤
      levCellF s1 s2 f i j + (if s1.getD i ' ' = s2.getD j ' ' then (0 : ℚ) else 1) := by
  simp only [levCellF]
  split <;> split <;>
    first
      | exact le_trans (jsMin_le_left _ _) (le_trans (jsMin_le_left _ _) (jsMin_le_right _ _))
      | exact le_trans (jsMin_le_left _ _) (jsMin_le_right _ _)
      | exact jsMin_le_right _ _

/-- Every cell value is bounded by the classic Levenshtein bound
`max i j`. -/
theorem levCellF_le_max (s1 s2 : List Char) :
    ∀ f i j, levCellF s1 s2 f i j ≤ ((max i j : ℕ) : ℚ) := by
  intro f
  induction f with
  | zero =>
    intro i j
    match i, j with
    | 0, j => simp [levCellF]
    | i + 1, 0 => simp [levCellF]
    | i + 1, j + 1 =>
      simp only [levCellF]
      positivity
  | succ f ih =>
    intro i j
    match i, j with
    | 0, j => simp [levCellF]
    | i + 1, 0 => simp [levCellF]
    | i + 1, j + 1 =>
      have h := levCellF_succ_le_sub s1 s2 f i j
      have h2 := ih i j
      have hcost : (if s1.getD i ' ' = s2.getD j ' ' then (0 : ℚ) else 1) ≤ 1 := by
        split <;> norm_num
      have hmax : (max (i + 1) (j + 1) : ℕ) = (max i j : ℕ) + 1 := by omega
      calc levCellF s1 s2 (f + 1) (i + 1) (j + 1)
          ≤ levCellF s1 s2 f i j + (if s1.getD i ' ' = s2.getD j ' ' then (0 : ℚ) else 1) := h
        _ ≤ ((max i j : ℕ) : ℚ) + 1 := add_le_add h2 hcost
        _ = ((max (i + 1) (j + 1) : ℕ) : ℚ) := by rw [hmax]; push_cast; ring

theorem getKeyboardDistance_nonneg (c1 c2 : Char) : 0 ≤ getKeyboardDistance c1 c2 := by
  unfold getKeyboardDistance
  split
  · positivity
  · norm_num

theorem getPhoneticSimilarity_nonneg (a b : List Char) : 0 ≤ getPhoneticSimilarity a b := by
  unfold getPhoneticSimilarity
  split
  · norm_num
  · have hgroups : ∀ (l : List (List Char × List Char)) (c : ℚ), 0 ≤ c →
        0 ≤ l.foldl (phonGroupStep a b) c := by
      intro l
      induction l with
      | nil => intro c hc; exact hc
      | cons x xs ih =>
        intro c hc
        refine ih _ ?_
        simp only [phonGroupStep]
        split <;> split <;> nlinarith [hc]
    have hchars : ∀ (l : List ℕ) (c : ℚ), 0 ≤ c → 0 ≤ l.foldl (phonCharStep a b) c := by
      intro l
      induction l with
      | nil => intro c hc; exact hc
      | cons x xs ih =>
        intro c hc
        refine ih _ ?_
        simp only [phonCharStep]
        have hk := getKeyboardDistance_nonneg (a.getD x ' ') (b.getD x ' ')
        split <;> nlinarith [hc, hk]
    exact hchars _ _ (hgroups _ _ (by positivity))

/-- Every cell value is non-negative. -/
theorem levCellF_nonneg (s1 s2 : List Char) : ∀ f i j, 0 ≤ levCellF s1 s2 f i j := by
  intro f
  induction f with
  | zero =>
    intro i j
    match i, j with
    | 0, j => simp [levCellF]
    | i + 1, 0 => simp [levCellF]; positivity
    | i + 1, j + 1 => simp [levCellF]
  | succ f ih =>
    intro i j
    match i, j with
    | 0, j => simp [levCellF]
    | i + 1, 0 => simp [levCellF]; positivity
    | i + 1, j + 1 =>
      simp only [levCellF]
      have hcost : (0 : ℚ) ≤ if s1.getD i ' ' = s2.getD j ' ' then (0 : ℚ) else 1 := by
        split <;> norm_num
      have hbase : (0 : ℚ) ≤ jsMin (jsMin (levCellF s1 s2 f i (j + 1) + 1) (levCellF s1 s2 f (i + 1) j + 1))
          (levCellF s1 s2 f i j + if s1.getD i ' ' = s2.getD j ' ' then (0 : ℚ) else 1) := by
        refine jsMin_nonneg (jsMin_nonneg ?_ ?_) ?_
        · have := ih i (j + 1); linarith
        · have := ih (i + 1) j; linarith
        · have := ih i j; linarith
      have htrans : (0 : ℚ) ≤ levCellF s1 s2 f (i - 1) (j - 1) +
          if s1.getD i ' ' = s2.getD j ' ' then (0 : ℚ) else 1 := by
        have := ih (i - 1) (j - 1); linarith
      have hphon : (0 : ℚ) ≤ levCellF s1 s2 f (i + 1 - 3) (j + 1 - 3) +
          getPhoneticSimilarity ((s1.drop (i + 1 - 3)).take 3) ((s2.drop (j + 1 - 3)).take 3) := by
        have h1 := ih (i + 1 - 3) (j + 1 - 3)
        have h2 := getPhoneticSimilarity_nonneg ((s1.drop (i + 1 - 3)).take 3)
          ((s2.drop (j + 1 - 3)).take 3)
        linarith
      split <;> split <;>
        first
          | exact jsMin_nonneg (jsMin_nonneg hbase htrans) hphon
          | exact jsMin_nonneg hbase hphon
          | exact jsMin_nonneg hbase htrans
          | exact hbase

/-- The distance function never returns a negative value. -/
theorem calculateLevenshteinDistance_nonneg (a b : List Char) :
    0 ≤ calculateLevenshteinDistance a b := by
  simp only [calculateLevenshteinDistance, levCell]
  split
  · positivity
  · split
    · exact le_rfl
    · exact jsMin_nonneg (jsMin_nonneg (levCellF_nonneg _ _ _ _ _) (levCellF_nonneg _ _ _ _ _))
        (levCellF_nonneg _ _ _ _ _)

theorem calculateRelevanceScore_zero (L Q : ℕ) : calculateRelevanceScore 0 L Q = 1 := by
  simp [calculateRelevanceScore]

theorem calculateRelevanceScore_le_one (d : ℚ) (L Q : ℕ) :
    calculateRelevanceScore d L Q ≤ 1 := by
  simp only [calculateRelevanceScore]
  split
  · exact le_rfl
  · split
    · norm_num
    · exact min_le_left _ _

/-- Monotonicity of the relevance score: for fixed lengths, a larger
non-negative distance never scores higher. -/
theorem calculateRelevanceScore_anti (L Q : ℕ) {d1 d2 : ℚ} (h0 : 0 ≤ d1) (h : d1 ≤ d2) :
    calculateRelevanceScore d2 L Q ≤ calculateRelevanceScore d1 L Q := by
  by_cases h1 : d1 = 0
  · rw [h1, calculateRelevanceScore_zero]
    exact calculateRelevanceScore_le_one _ _ _
  · have hd1 : 0 < d1 := lt_of_le_of_ne h0 (Ne.symm h1)
    have h2 : d2 ≠ 0 := ne_of_gt (lt_of_lt_of_le hd1 h)
    simp only [calculateRelevanceScore, if_neg h1, if_neg h2]
    by_cases hm : max L Q = 0
    · rw [if_pos hm, if_pos hm]
    · rw [if_neg hm, if_neg hm]
      refine min_le_min le_rfl ?_
      have hmpos : (0 : ℝ) < ((max L Q : ℕ) : ℝ) := by
        exact_mod_cast Nat.pos_of_ne_zero hm
      refine mul_le_mul_of_nonneg_right ?_ ?_
      · refine Real.exp_le_exp.mpr ?_
        have hdc : ((d1 : ℚ) : ℝ) ≤ ((d2 : ℚ) : ℝ) := by exact_mod_cast h
        have hdiv : ((d1 : ℚ) : ℝ) / ((max L Q : ℕ) : ℝ) ≤ ((d2 : ℚ) : ℝ) / ((max L Q : ℕ) : ℝ) := by
          gcongr
        nlinarith [hdiv]
      · positivity

/-! ### Concrete records used by the claim theorems -/

/-- A product named `Laptop Stand` (whitespace inside the name). -/
def laptopStand : ProductR :=
  { name := ['L', 'a', 'p', 't', 'o', 'p', ' ', 'S', 't', 'a', 'n', 'd']
    description := none, price := 10, sku := none, tags := none, categoryName := none }

/-- A product whose name and description are both the single word `phone`. -/
def phoneProduct : ProductR :=
  { name := ['p', 'h', 'o', 'n', 'e']
    description := some ['p', 'h', 'o', 'n', 'e']
    price := 10, sku := none, tags := none, categoryName := none }

/-- A product priced `10` for the price-filter theorems. -/
def cheapWidget : ProductR :=
  { name := ['w', 'i', 'd', 'g', 'e', 't']
    description := none, price := 10, sku := none, tags := none, categoryName := none }

/-! ### Claim theorems -/

/-- Claim C1 (code_bug evidence): the ScoreCombiner has no special case for
a zero-length query.  A query length of `0` makes the normalizer
`ln(0 + 1) = 0` and the source divides by it.  For every positive
`totalWeightedScore` (and the engine's weighted totals are always
positive — the name probe alone contributes a positive term) the result is
`Infinity`/`NaN` (embedded as `none`), not the score `0` the claim states;
only the engine-unreachable negative totals produce `0`, and that via
`Math.max(0, -Infinity)`, not via a special case. -/
theorem C1_no_zero_query_special_case :
    ∀ (totalScore : ℝ) (matchCount : ℕ),
      (0 < totalScore → calculateFinalScore totalScore matchCount 0 = none) ∧
      (totalScore < 0 → calculateFinalScore totalScore matchCount 0 = some 0) := by
  intro totalScore matchCount
  have hmc : (0 : ℝ) ≤ (matchCount : ℝ) := Nat.cast_nonneg matchCount
  have hlog : Real.log (((0 : ℕ) : ℝ) + 1) = 0 := by norm_num
  constructor
  · intro ht
    simp only [calculateFinalScore]
    rw [if_pos hlog, if_neg]
    push_neg
    nlinarith
  · intro ht
    simp only [calculateFinalScore]
    rw [if_pos hlog, if_pos]
    nlinarith

/-- Witness for C1 at `totalScore = 1` (non-finite result) and
`totalScore = -1` (the clamp's finite `0`), both at `matchCount = 0`,
`queryLength = 0`. -/
theorem C1_witness :
    ((0 : ℝ) < 1 ∧ calculateFinalScore 1 0 0 = none) ∧
    ((-1 : ℝ) < 0 ∧ calculateFinalScore (-1) 0 0 = some 0) :=
  ⟨⟨by norm_num, (C1_no_zero_query_special_case 1 0).1 (by norm_num)⟩,
   ⟨by norm_num, (C1_no_zero_query_special_case (-1) 0).2 (by norm_num)⟩⟩

/-- Claim C2 (code_bug evidence): a non-empty, non-parseable `minPrice`
(resp. `maxPrice`) does not leave the result set unchanged — `parseFloat`
yields `NaN`, every `>=`/`<=` comparison with `NaN` is false, and the
filter removes every product.  With the bound absent the product survives. -/
theorem C2_malformed_bound_rejects_all :
    applyPriceFilters (some ['a', 'b', 'c']) none [cheapWidget] = [] ∧
    applyPriceFilters none (some ['x', 'y', 'z']) [cheapWidget] = [] ∧
    applyPriceFilters none none [cheapWidget] = [cheapWidget] := by
  refine ⟨?_, ?_, ?_⟩ <;> decide

/-- Claim C4 (code_bug evidence): the name-token probe does not evaluate
whitespace-split words.  The split regex in the source is the literal
`/\\s+/` — a backslash followed by letters `s` — so the name
`Laptop Stand` produces the single token `laptop stand` (still containing
the space) instead of the two words `laptop` and `stand`. -/
theorem C4_name_not_split_on_whitespace :
    nameWords laptopStand = [['l', 'a', 'p', 't', 'o', 'p', ' ', 's', 't', 'a', 'n', 'd']] ∧
    nameWords laptopStand ≠ [['l', 'a', 'p', 't', 'o', 'p'], ['s', 't', 'a', 'n', 'd']] := by
  refine ⟨?_, ?_⟩ <;> decide

/-- Claim C9: the edit distance of a string with itself is `0` (including
the empty string, which takes the empty-input branch), and the distance
from the empty string to `s` is the length of `s`. -/
theorem C9_identity_and_empty :
    ∀ (a s : List Char),
      calculateLevenshteinDistance a a = 0 ∧
      calculateLevenshteinDistance [] s = (s.length : ℚ) := by
  intro a s
  constructor
  · by_cases h : a = [] <;> simp [calculateLevenshteinDistance, h]
  · simp [calculateLevenshteinDistance]

/-- Claim C10: the distance never exceeds `max(length a, length b)` — the
transposition and phonetic options only enter through minima, so no cell
exceeds the classic Levenshtein bound, and the returned minimum over the
three variants is at most the first variant's value. -/
theorem C10_distance_le_max_length :
    ∀ a b : List Char, calculateLevenshteinDistance a b ≤ ((max a.length b.length : ℕ) : ℚ) := by
  intro a b
  simp only [calculateLevenshteinDistance, levCell]
  split
  · exact le_rfl
  · split
    · positivity
    · refine le_trans (le_trans (jsMin_le_left _ _) (jsMin_le_left _ _)) ?_
      exact levCellF_le_max a b (a.length + b.length) a.length b.length

/-- Claim C6: for fixed target and query lengths the relevance score is
non-increasing as the (non-negative) distance increases, and distance `0`
scores exactly `1`. -/
theorem C6_relevance_monotone_and_perfect_match :
    ∀ (L Q : ℕ) (d1 d2 : ℚ),
      (0 ≤ d1 → d1 ≤ d2 → calculateRelevanceScore d2 L Q ≤ calculateRelevanceScore d1 L Q) ∧
      calculateRelevanceScore 0 L Q = 1 := by
  intro L Q d1 d2
  exact ⟨fun h0 h => calculateRelevanceScore_anti L Q h0 h, calculateRelevanceScore_zero L Q⟩

/-- Witness for C6 at `L = Q = 2`, `d1 = 1`, `d2 = 2`. -/
theorem C6_witness :
    (0 ≤ (1 : ℚ)) ∧ ((1 : ℚ) ≤ 2) ∧
    calculateRelevanceScore 2 2 2 ≤ calculateRelevanceScore 1 2 2 ∧
    calculateRelevanceScore 0 2 2 = 1 :=
  ⟨by norm_num, by norm_num,
    (C6_relevance_monotone_and_perfect_match 2 2 1 2).1 (by norm_num) (by norm_num),
    (C6_relevance_monotone_and_perfect_match 2 2 1 2).2⟩

/-- The characters of the query `labtop` (lowercased, trimmed). -/
def labtopChars : List Char := ['l', 'a', 'b', 't', 'o', 'p']

/-- The characters of the product name `Laptop` (lowercased, trimmed). -/
def laptopChars : List Char := ['l', 'a', 'p', 't', 'o', 'p']

/-- Claim C7: the relevance of query `labtop` against name `laptop` (both
length 6) is strictly greater than `0.6`.  The distance is at most `1` (a
single substitution), so the score is at least
`min(1, 1.2 * exp(-2/6)) > 0.6`. -/
theorem C7_labtop_laptop_relevance :
    0.6 < calculateRelevanceScore (calculateLevenshteinDistance labtopChars laptopChars) 6 6 := by
  have hnn : 0 ≤ calculateLevenshteinDistance labtopChars laptopChars :=
    calculateLevenshteinDistance_nonneg _ _
  have hlen1 : labtopChars.length = 6 := rfl
  have hlen2 : laptopChars.length = 6 := rfl
  have hle : calculateLevenshteinDistance labtopChars laptopChars ≤ 1 := by
    have hne : ¬(labtopChars = [] ∨ laptopChars = []) := by decide
    have hne2 : ¬labtopChars = laptopChars := by decide
    simp only [calculateLevenshteinDistance, levCell, if_neg hne, if_neg hne2, hlen1, hlen2]
    refine le_trans (le_trans (jsMin_le_left _ _) (jsMin_le_left _ _)) ?_
    have s1 := levCellF_succ_le_sub labtopChars laptopChars 11 5 5
    have s2 := levCellF_succ_le_sub labtopChars laptopChars 10 4 4
    have s3 := levCellF_succ_le_sub labtopChars laptopChars 9 3 3
    have s4 := levCellF_succ_le_sub labtopChars laptopChars 8 2 2
    have s5 := levCellF_succ_le_sub labtopChars laptopChars 7 1 1
    have s6 := levCellF_succ_le_sub labtopChars laptopChars 6 0 0
    have h00 : levCellF ['l', 'a', 'b', 't', 'o', 'p'] ['l', 'a', 'p', 't', 'o', 'p'] 6 0 0 = 0 := by
      norm_num [levCellF]
    norm_num +decide [labtopChars, laptopChars, List.getD] at s1 s2 s3 s4 s5 s6 ⊢
    linarith
  have hmono := calculateRelevanceScore_anti 6 6 hnn hle
  have hexp : (1 / 2 : ℝ) < Real.exp (-(1 / 3)) := by
    have hl2 : Real.exp (Real.log (1 / 2)) = 1 / 2 := Real.exp_log (by norm_num)
    rw [← hl2]
    refine Real.exp_lt_exp.mpr ?_
    rw [show (1 / 2 : ℝ) = 2⁻¹ by norm_num, Real.log_inv]
    have hlog : (1 / 3 : ℝ) < Real.log 2 := lt_trans (by norm_num) Real.log_two_gt_d9
    linarith
  have h1 : (0.6 : ℝ) < calculateRelevanceScore 1 6 6 := by
    simp only [calculateRelevanceScore]
    rw [if_neg (by norm_num : (1 : ℚ) ≠ 0), if_neg (by norm_num : max 6 6 ≠ 0)]
    norm_num
    nlinarith [hexp]
  linarith

/-- A fold whose step adds at most one per element is bounded by the start
value plus the list length. -/
theorem foldl_add_ind_le {α : Type} (g : ℕ → α → ℕ) (hstep : ∀ c x, g c x ≤ c + 1) :
    ∀ (l : List α) (c : ℕ), l.foldl g c ≤ c + l.length := by
  intro l
  induction l with
  | nil => intro c; simp
  | cons x xs ih =>
    intro c
    calc (x :: xs).foldl g c = xs.foldl g (g c x) := rfl
      _ ≤ g c x + xs.length := ih _
      _ ≤ c + (x :: xs).length := by have := hstep c x; simp [List.length_cons]; omega

/-- Claim C3 counterexample: with name and description both `phone` and
query `phone`, the description probe category increments `matchCount`
twice — once for the whole description (relevance `1 > 0.2`) and once for
its first token (relevance `1 > 0.4`) — so `matchCount` is not
"at most once per probe category"; the total is `3`, not at most the
number of probe categories that fire primarily (`2`). -/
theorem C3_counterexample_desc_double_count :
    descMatchCount phoneProduct ['p', 'h', 'o', 'n', 'e'] = 2 ∧
    smartMatchCount phoneProduct ['p', 'h', 'o', 'n', 'e'] = 3 := by
  have htrim : jsTrim (jsToLower ['p', 'h', 'o', 'n', 'e']) = ['p', 'h', 'o', 'n', 'e'] := by
    decide
  have hlow : jsToLower ['p', 'h', 'o', 'n', 'e'] = ['p', 'h', 'o', 'n', 'e'] := by decide
  have hsplit : splitBackslashS ['p', 'h', 'o', 'n', 'e'] = [['p', 'h', 'o', 'n', 'e']] := by
    decide
  have hdist : calculateLevenshteinDistance ['p', 'h', 'o', 'n', 'e'] ['p', 'h', 'o', 'n', 'e'] = 0 := by
    simp [calculateLevenshteinDistance]
  have htrim2 : jsTrim ['p', 'h', 'o', 'n', 'e'] = ['p', 'h', 'o', 'n', 'e'] := by decide
  have hdesc : descMatchCount phoneProduct ['p', 'h', 'o', 'n', 'e'] = 2 := by
    simp only [descMatchCount, phoneProduct]
    norm_num [descWordStep, htrim, htrim2, hlow, hsplit, hdist, calculateRelevanceScore_zero]
  refine ⟨hdesc, ?_⟩
  have hname : nameMatchCount phoneProduct ['p', 'h', 'o', 'n', 'e'] = 1 := by
    simp only [nameMatchCount, phoneProduct]
    norm_num [htrim, htrim2, hlow, hdist, calculateRelevanceScore_zero]
  have hcat : categoryMatchCount phoneProduct ['p', 'h', 'o', 'n', 'e'] = 0 := rfl
  have hsku : skuMatchCount phoneProduct ['p', 'h', 'o', 'n', 'e'] = 0 := rfl
  have htags : tagsMatchCount phoneProduct ['p', 'h', 'o', 'n', 'e'] = 0 := rfl
  simp [smartMatchCount, hname, hdesc, hcat, hsku, htags]

/-- The description-token step adds at most one per word. -/
theorem descWordStep_le (q : List Char) : ∀ c x, descWordStep q c x ≤ c + 1 := by
  intro c x
  simp only [descWordStep]
  split
  · split <;> omega
  · omega

/-- The tags step adds at most one per tag. -/
theorem tagStep_le (q : List Char) : ∀ c x, tagStep q c x ≤ c + 1 := by
  intro c x
  simp only [tagStep]
  split <;> omega

/-- Claim C3 amended: the name, category and SKU probe categories each
increment `matchCount` at most once (their token/sub-window probes never
touch the counter), but the description category can increment up to six
times (whole description plus one per qualifying token among the first
five words) and the tags category once per tag; `matchCount` is exactly
the sum of the five per-category contributions. -/
theorem C3_amended_matchcount_decomposition :
    ∀ (p : ProductR) (q : List Char),
      smartMatchCount p q =
        nameMatchCount p q + descMatchCount p q + categoryMatchCount p q +
          skuMatchCount p q + tagsMatchCount p q ∧
      nameMatchCount p q ≤ 1 ∧
      categoryMatchCount p q ≤ 1 ∧
      skuMatchCount p q ≤ 1 ∧
      descMatchCount p q ≤ 6 ∧
      tagsMatchCount p q ≤ (p.tags.getD []).length := by
  intro p q
  refine ⟨rfl, ?_, ?_, ?_, ?_, ?_⟩
  · simp only [nameMatchCount]
    split <;> simp
  · simp only [categoryMatchCount]
    cases p.categoryName with
    | none => simp
    | some n =>
      dsimp only
      split
      · simp
      · split <;> simp
  · simp only [skuMatchCount]
    cases p.sku with
    | none => simp
    | some s =>
      dsimp only
      split
      · simp
      · split <;> simp
  · simp only [descMatchCount]
    cases p.description with
    | none => simp
    | some d =>
      dsimp only
      split
      · have hfold := foldl_add_ind_le (descWordStep q) (descWordStep_le q)
          ((splitBackslashS (jsToLower d)).take 5) 0
        have hlen := List.length_take 5 (splitBackslashS (jsToLower d))
        split <;> omega
      · simp
  · simp only [tagsMatchCount]
    cases p.tags with
    | none => simp
    | some ts =>
      dsimp only
      have hfold := foldl_add_ind_le (tagStep q) (tagStep_le q) ts 0
      simpa using hfold

theorem jsAbsQ_eq_abs (x : ℚ) : jsAbsQ x = |x| := by
  unfold jsAbsQ
  split
  · exact (abs_of_neg (by assumption)).symm
  · exact (abs_of_nonneg (not_lt.mp (by assumption))).symm

theorem localeCmp_swap : ∀ a b : List Char, localeCmp b a = -localeCmp a b := by
  intro a
  induction a with
  | nil => intro b; cases b <;> simp [localeCmp]
  | cons x xs ih =>
    intro b
    cases b with
    | nil => simp [localeCmp]
    | cons y ys =>
      simp only [localeCmp]
      rcases lt_trichotomy x y with h | h | h
      · simp [h, asymm h]
      · subst h
        simp [lt_irrefl, ih]
      · simp [h, asymm h]

/-- The comparator is antisymmetric: swapping the arguments negates it
(the `0.01` window and the match-count test are symmetric, and
`localeCompare` negates under swap). -/
theorem searchComparator_antisymm (a b : RankedItem) :
    searchComparator b a = -searchComparator a b := by
  unfold searchComparator
  have habs : jsAbsQ (b.searchScore - a.searchScore) = jsAbsQ (a.searchScore - b.searchScore) := by
    rw [jsAbsQ_eq_abs, jsAbsQ_eq_abs, abs_sub_comm]
  rw [habs]
  by_cases h1 : jsAbsQ (a.searchScore - b.searchScore) > 1 / 100
  · rw [if_pos h1, if_pos h1]
    ring
  · rw [if_neg h1, if_neg h1]
    by_cases h2 : a.matchCount = b.matchCount
    · rw [if_neg (fun hc => hc h2.symm), if_neg (fun hc => hc h2), localeCmp_swap]
      push_cast
      ring
    · rw [if_pos (fun hc => h2 hc.symm), if_pos h2]
      ring

/-- Specification of the binary-search position: the result stays inside
the probed window, the element just before it (if any) compares `≥ 0`
against the pivot, and the element at it (if any) compares `< 0`.  Only
the comparisons the search actually performs are used — elements it skips
are never related to the pivot. -/
theorem binSearchPos_spec (a : List RankedItem) (pivot : RankedItem) :
    ∀ (fuel left right : ℕ),
      left ≤ right → right ≤ a.length → right - left ≤ fuel →
      (left = 0 ∨ 0 ≤ searchComparator pivot (a.getD (left - 1) dummyItem)) →
      (right = a.length ∨ searchComparator pivot (a.getD right dummyItem) < 0) →
      left ≤ binSearchPos a pivot fuel left right ∧
      binSearchPos a pivot fuel left right ≤ right ∧
      (binSearchPos a pivot fuel left right = 0 ∨
        0 ≤ searchComparator pivot (a.getD (binSearchPos a pivot fuel left right - 1) dummyItem)) ∧
      (binSearchPos a pivot fuel left right = a.length ∨
        searchComparator pivot (a.getD (binSearchPos a pivot fuel left right) dummyItem) < 0) := by
  intro fuel
  induction fuel with
  | zero =>
    intro left right h1 h2 h3 h4 h5
    have hlr : left = right := by omega
    subst hlr
    simp only [binSearchPos]
    exact ⟨le_rfl, le_rfl, h4, h5⟩
  | succ fuel ih =>
    intro left right h1 h2 h3 h4 h5
    simp only [binSearchPos]
    split
    · rename_i hle
      have hlr : left = right := by omega
      subst hlr
      exact ⟨le_rfl, le_rfl, h4, h5⟩
    · rename_i hgt
      have hlt : left < right := by omega
      have hmid1 : left ≤ left + (right - left) / 2 := by omega
      have hmid2 : left + (right - left) / 2 < right := by omega
      split
      · rename_i hcmp
        obtain ⟨c1, c2, c3, c4⟩ := ih left (left + (right - left) / 2)
          (by omega) (by omega) (by omega) h4 (Or.inr hcmp)
        exact ⟨c1, by omega, c3, c4⟩
      · rename_i hcmp
        push_neg at hcmp
        obtain ⟨c1, c2, c3, c4⟩ := ih (left + (right - left) / 2 + 1) right
          (by omega) h2 (by omega) (Or.inr (by simpa using hcmp)) h5
        exact ⟨by omega, c2, c3, c4⟩

/-- Splicing an element into a comparator-adjacent-sorted list at a
position whose neighbours are consistent with it preserves adjacency. -/
theorem chain'_insertPos (pivot : RankedItem) :
    ∀ (pos : ℕ) (l : List RankedItem), pos ≤ l.length → l.Chain' SearchLe →
      (∀ x, 0 < pos → l.get? (pos - 1) = some x → SearchLe x pivot) →
      (∀ y, l.get? pos = some y → SearchLe pivot y) →
      (l.take pos ++ pivot :: l.drop pos).Chain' SearchLe := by
  intro pos
  induction pos with
  | zero =>
    intro l hlen hchain hleft hright
    simp only [List.take_zero, List.drop_zero, List.nil_append]
    refine List.chain'_cons'.mpr ⟨?_, hchain⟩
    intro y hy
    apply hright
    have hh : l.get? 0 = l.head? := by cases l <;> rfl
    rw [hh]
    exact hy
  | succ k ih =>
    intro l hlen hchain hleft hright
    match l with
    | [] => simp at hlen
    | x :: t =>
      simp only [List.take_succ_cons, List.drop_succ_cons, List.cons_append]
      refine List.chain'_cons'.mpr ⟨?_, ?_⟩
      · intro y hy
        match hk : k, t with
        | 0, t =>
          simp only [List.take_zero, List.drop_zero, List.nil_append, List.head?_cons,
            Option.mem_def, Option.some.injEq] at hy
          subst hy
          exact hleft x (by omega) rfl
        | j + 1, [] => simp at hlen
        | j + 1, c :: t' =>
          simp only [List.take_succ_cons, List.cons_append, List.head?_cons,
            Option.mem_def, Option.some.injEq] at hy
          subst hy
          exact (List.chain'_cons.mp hchain).1
      · refine ih t (by simpa using hlen) hchain.tail ?_ ?_
        · intro x' hx' hget
          refine hleft x' (by omega) ?_
          have : (x :: t).get? (k + 1 - 1) = t.get? (k - 1) := by
            match k, hx' with
            | j + 1, _ => rfl
          rw [this]
          exact hget
        · intro y hget
          exact hright y hget

/-- Binary insertion preserves comparator-adjacency of the run. -/
theorem chain'_binaryInsert (run : List RankedItem) (pivot : RankedItem)
    (h : run.Chain' SearchLe) : (binaryInsert run pivot).Chain' SearchLe := by
  obtain ⟨c1, c2, c3, c4⟩ := binSearchPos_spec run pivot run.length 0 run.length
    (Nat.zero_le _) le_rfl (by omega) (Or.inl rfl) (Or.inl rfl)
  simp only [binaryInsert]
  refine chain'_insertPos pivot _ run c2 h ?_ ?_
  · intro z hz hget
    rcases c3 with h0 | hge
    · omega
    · have hzd : run.getD (binSearchPos run pivot run.length 0 run.length - 1) dummyItem = z := by
        rw [List.getD_eq_get?, hget]
        rfl
      rw [hzd] at hge
      have ha := searchComparator_antisymm pivot z
      unfold SearchLe
      linarith
  · intro y hget
    rcases c4 with hlen | hlt
    · rw [hlen] at hget
      rw [List.get?_eq_none.mpr le_rfl] at hget
      cases hget
    · have hyd : run.getD (binSearchPos run pivot run.length 0 run.length) dummyItem = y := by
        rw [List.getD_eq_get?, hget]
        rfl
      rw [hyd] at hlt
      unfold SearchLe
      linarith

/-- Binary-inserting any sequence of pending elements preserves
comparator-adjacency. -/
theorem chain'_binaryInsertAll :
    ∀ (rest run : List RankedItem), run.Chain' SearchLe →
      (binaryInsertAll run rest).Chain' SearchLe := by
  intro rest
  induction rest with
  | nil =>
    intro run h
    simpa [binaryInsertAll] using h
  | cons x rest ih =>
    intro run h
    simp only [binaryInsertAll]
    exact ih _ (chain'_binaryInsert run x h)

/-- The ascending-run extension always returns a run headed by `prev`. -/
theorem ascRun_fst_head (prev : RankedItem) (l : List RankedItem) :
    ∃ t, (ascRun prev l).1 = prev :: t := by
  cases l with
  | nil => exact ⟨[], rfl⟩
  | cons x rest =>
    simp only [ascRun]
    split
    · exact ⟨_, rfl⟩
    · exact ⟨[], rfl⟩

/-- The descending-run extension always returns a run headed by `prev`. -/
theorem descRun_fst_head (prev : RankedItem) (l : List RankedItem) :
    ∃ t, (descRun prev l).1 = prev :: t := by
  cases l with
  | nil => exact ⟨[], rfl⟩
  | cons x rest =>
    simp only [descRun]
    split
    · exact ⟨_, rfl⟩
    · exact ⟨[], rfl⟩

/-- An ascending run is comparator-adjacent-sorted: each extension step
compared `≥ 0` against its predecessor. -/
theorem ascRun_chain' :
    ∀ (l : List RankedItem) (prev : RankedItem), ((ascRun prev l).1).Chain' SearchLe := by
  intro l
  induction l with
  | nil => intro prev; simp [ascRun]
  | cons x rest ih =>
    intro prev
    simp only [ascRun]
    split
    · rename_i hc
      obtain ⟨t, ht⟩ := ascRun_fst_head x rest
      have hchain := ih x
      rw [ht] at hchain ⊢
      refine List.chain'_cons.mpr ⟨?_, hchain⟩
      have ha := searchComparator_antisymm x prev
      unfold SearchLe
      linarith
    · simp

/-- A descending run is adjacent-sorted for the flipped relation: each
extension step compared `< 0` against its predecessor. -/
theorem descRun_chain' :
    ∀ (l : List RankedItem) (prev : RankedItem),
      ((descRun prev l).1).Chain' (flip SearchLe) := by
  intro l
  induction l with
  | nil => intro prev; simp [descRun]
  | cons x rest ih =>
    intro prev
    simp only [descRun]
    split
    · rename_i hc
      obtain ⟨t, ht⟩ := descRun_fst_head x rest
      have hchain := ih x
      rw [ht] at hchain ⊢
      refine List.chain'_cons.mpr ⟨?_, hchain⟩
      exact le_of_lt hc
    · simp

/-- The output of the V8 small-array sort is adjacent-sorted for the
comparator relation: the initial run is adjacent-sorted by construction
(reversal flips the strictly descending comparisons) and binary insertion
preserves adjacency. -/
theorem chain'_v8SmallSort (l : List RankedItem) : (v8SmallSort l).Chain' SearchLe := by
  match l with
  | [] => simp [v8SmallSort]
  | [x] => simp [v8SmallSort]
  | x :: y :: rest =>
    simp only [v8SmallSort]
    split
    · rename_i hc
      refine chain'_binaryInsertAll _ _ ?_
      rw [List.chain'_reverse]
      obtain ⟨t, ht⟩ := descRun_fst_head y rest
      have hchain := descRun_chain' rest y
      rw [ht] at hchain ⊢
      refine List.chain'_cons.mpr ⟨?_, hchain⟩
      exact le_of_lt hc
    · rename_i hc
      refine chain'_binaryInsertAll _ _ ?_
      obtain ⟨t, ht⟩ := ascRun_fst_head y rest
      have hchain := ascRun_chain' rest y
      rw [ht] at hchain ⊢
      refine List.chain'_cons.mpr ⟨?_, hchain⟩
      have ha := searchComparator_antisymm y x
      unfold SearchLe
      push_neg at hc
      linarith

/-- Counterexample items: an initial weakly ascending run (by the
comparator) of scores `0.030 / 0.018 / 0.006` named `c / a / z`, followed
by a pending item of score `0.024` named `b`; all have one match. -/
def cxP1 : RankedItem := ⟨30 / 1000, 1, ['c']⟩

/-- Second item of the counterexample input (see `cxP1`). -/
def cxP2 : RankedItem := ⟨18 / 1000, 1, ['a']⟩

/-- Third item of the counterexample input (see `cxP1`). -/
def cxP3 : RankedItem := ⟨6 / 1000, 1, ['z']⟩

/-- The pending item of the counterexample input (see `cxP1`). -/
def cxQ : RankedItem := ⟨24 / 1000, 1, ['b']⟩

/-- Claim C8 counterexample, against the V8 sort model: run formation keeps
`[c, a, z]` (score gaps `0.012` exceed the tie window, so the comparator
orders them by score), and the binary insertion of `(0.024, b)` compares it
only with `(0.018, a)` (tie, name `b > a`, go right) and `(0.006, z)`
(score gap, go left) — never with the tied head `(0.030, c)` — placing it
at position 2.  The output `[c, a, b, z]` has the tied pair
`(0.030, c)` at position 0 and `(0.024, b)` at position 2 with equal match
counts in name-descending order, violating the claim. -/
theorem C8_counterexample_tie_order_violation :
    (rankResults [cxP1, cxP2, cxP3, cxQ]).get? 0 = some cxP1 ∧
    (rankResults [cxP1, cxP2, cxP3, cxQ]).get? 2 = some cxQ ∧
    jsAbsQ (cxP1.searchScore - cxQ.searchScore) ≤ 1 / 100 ∧
    cxP1.matchCount = cxQ.matchCount ∧
    0 < localeCmp cxP1.name cxQ.name := by
  have hrank : rankResults [cxP1, cxP2, cxP3, cxQ] = [cxP1, cxP2, cxQ, cxP3] := by
    norm_num +decide [rankResults, v8SmallSort, ascRun, descRun, binaryInsertAll, binaryInsert,
      binSearchPos, keepResult, List.filter, SearchLe, searchComparator, jsAbsQ, localeCmp,
      List.getD, cxP1, cxP2, cxP3, cxQ]
  refine ⟨by rw [hrank]; rfl, by rw [hrank]; rfl, ?_, rfl, ?_⟩
  · norm_num [cxP1, cxQ, jsAbsQ]
  · decide

/-- Claim C8 amended: the guarantee holds for adjacent kept products — if
two products at consecutive positions of the sorted output have scores
within `0.01` and equal match counts, the earlier one's name is
lexicographically no greater.  (For non-adjacent pairs the `0.01` tie
window is not transitive and the property fails, see the counterexample;
binary search can skip a tied element entirely.) -/
theorem C8_amended_adjacent_tiebreak :
    ∀ (l : List RankedItem) (i : ℕ) (a b : RankedItem),
      (rankResults l).get? i = some a → (rankResults l).get? (i + 1) = some b →
      jsAbsQ (a.searchScore - b.searchScore) ≤ 1 / 100 → a.matchCount = b.matchCount →
      localeCmp a.name b.name ≤ 0 := by
  intro l i a b ha hb htie hmc
  have hchain : (rankResults l).Chain' SearchLe := chain'_v8SmallSort _
  rw [List.get?_eq_some] at ha hb
  obtain ⟨hia, hga⟩ := ha
  obtain ⟨hib, hgb⟩ := hb
  have hlt : i < (rankResults l).length - 1 := by omega
  have hR := List.chain'_iff_get.mp hchain i hlt
  rw [(by congr : (rankResults l).get ⟨i, by omega⟩ = (rankResults l).get ⟨i, hia⟩), hga] at hR
  rw [(by congr : (rankResults l).get ⟨i + 1, by omega⟩ = (rankResults l).get ⟨i + 1, hib⟩),
    hgb] at hR
  unfold SearchLe searchComparator at hR
  rw [if_neg (not_lt.mpr htie), if_neg (fun hc => hc hmc)] at hR
  exact_mod_cast hR

/-- Two tied items used to witness the amended C8 theorem. -/
def wtItemA : RankedItem := ⟨0, 1, ['a']⟩

/-- Second witness item (see `wtItemA`). -/
def wtItemB : RankedItem := ⟨0, 1, ['b']⟩

/-- Witness for the amended C8 theorem on a concrete two-item input. -/
theorem C8_amended_witness :
    (rankResults [wtItemA, wtItemB]).get? 0 = some wtItemA ∧
    (rankResults [wtItemA, wtItemB]).get? 1 = some wtItemB ∧
    jsAbsQ (wtItemA.searchScore - wtItemB.searchScore) ≤ 1 / 100 ∧
    wtItemA.matchCount = wtItemB.matchCount ∧
    localeCmp wtItemA.name wtItemB.name ≤ 0 := by
  have hrank : rankResults [wtItemA, wtItemB] = [wtItemA, wtItemB] := by
    norm_num +decide [rankResults, v8SmallSort, ascRun, descRun, binaryInsertAll, binaryInsert,
      binSearchPos, keepResult, List.filter, SearchLe, searchComparator, jsAbsQ, localeCmp,
      List.getD, wtItemA, wtItemB]
  have h0 : (rankResults [wtItemA, wtItemB]).get? 0 = some wtItemA := by rw [hrank]; rfl
  have h1 : (rankResults [wtItemA, wtItemB]).get? 1 = some wtItemB := by rw [hrank]; rfl
  have htie : jsAbsQ (wtItemA.searchScore - wtItemB.searchScore) ≤ 1 / 100 := by
    norm_num [wtItemA, wtItemB, jsAbsQ]
  refine ⟨h0, h1, htie, rfl, ?_⟩
  exact C8_amended_adjacent_tiebreak [wtItemA, wtItemB] 0 wtItemA wtItemB h0 h1 htie rfl

theorem jsMin_comm (a b : ℚ) : jsMin a b = jsMin b a := by
  rw [jsMin_eq_min, jsMin_eq_min, min_comm]

theorem getKeyboardDistance_comm (c1 c2 : Char) :
    getKeyboardDistance c1 c2 = getKeyboardDistance c2 c1 := by
  unfold getKeyboardDistance
  cases findKeyPos c1 with
  | none => cases findKeyPos c2 <;> rfl
  | some p =>
    cases findKeyPos c2 with
    | none => rfl
    | some q =>
      dsimp only
      have e1 : ((p.1 : ℤ) - q.1).natAbs = ((q.1 : ℤ) - p.1).natAbs := by omega
      have e2 : ((p.2 : ℤ) - q.2).natAbs = ((q.2 : ℤ) - p.2).natAbs := by omega
      rw [e1, e2]

/-- Each phonetic-group iteration is symmetric in the two substrings: the
two conditional `0.8` factors swap roles. -/
theorem phonGroupStep_comm (a b : List Char) (pq : List Char × List Char) (c : ℚ) :
    phonGroupStep a b c pq = phonGroupStep b a c pq := by
  simp only [phonGroupStep]
  by_cases h1 : hasSeg pq.1 a ∧ hasSeg pq.2 b <;>
    by_cases h2 : hasSeg pq.1 b ∧ hasSeg pq.2 a <;>
      simp [h1, h2]

/-- Each aligned-character iteration is symmetric in the two substrings. -/
theorem phonCharStep_comm (a b : List Char) (i : ℕ) (c : ℚ) :
    phonCharStep a b c i = phonCharStep b a c i := by
  simp only [phonCharStep]
  rw [getKeyboardDistance_comm]
  by_cases h : isVowel (a.getD i ' ') ∧ isVowel (b.getD i ' ')
  · rw [if_pos h, if_pos ⟨h.2, h.1⟩]
  · rw [if_neg h, if_neg (fun hc => h ⟨hc.2, hc.1⟩)]

theorem foldl_congr_fun {α : Type} (f g : ℚ → α → ℚ) (h : ∀ c x, f c x = g c x) :
    ∀ (l : List α) (c : ℚ), l.foldl f c = l.foldl g c := by
  intro l
  induction l with
  | nil => intro c; rfl
  | cons x xs ih =>
    intro c
    rw [List.foldl_cons, List.foldl_cons, h, ih]

/-- The phonetic cost estimate is symmetric in its two substrings. -/
theorem getPhoneticSimilarity_comm (a b : List Char) :
    getPhoneticSimilarity a b = getPhoneticSimilarity b a := by
  simp only [getPhoneticSimilarity]
  by_cases h : a = [] ∨ b = []
  · rw [if_pos h, if_pos (Or.symm h)]
  · rw [if_neg h, if_neg (fun hc => h (Or.symm hc))]
    have hbase : (((a.length : ℤ) - b.length).natAbs : ℚ) =
        (((b.length : ℤ) - a.length).natAbs : ℚ) := by
      congr 1
      omega
    rw [hbase, min_comm a.length b.length,
      foldl_congr_fun (phonGroupStep a b) (phonGroupStep b a)
        (fun c x => phonGroupStep_comm a b x c),
      foldl_congr_fun (phonCharStep a b) (phonCharStep b a)
        (fun c x => phonCharStep_comm a b x c)]

/-- The DP cell value is symmetric under swapping the two strings together
with the two indices: every option of the cell equation maps to the
corresponding option of the transposed cell. -/
theorem levCellF_symm (s1 s2 : List Char) :
    ∀ f i j, levCellF s1 s2 f i j = levCellF s2 s1 f j i := by
  intro f
  induction f with
  | zero =>
    intro i j
    match i, j with
    | 0, 0 => simp only [levCellF]
    | 0, j + 1 => simp only [levCellF]; push_cast; ring
    | i + 1, 0 => simp only [levCellF]; push_cast; ring
    | i + 1, j + 1 => simp only [levCellF]
  | succ f ih =>
    intro i j
    match i, j with
    | 0, 0 => simp only [levCellF]
    | 0, j + 1 => simp only [levCellF]; push_cast; ring
    | i + 1, 0 => simp only [levCellF]; push_cast; ring
    | i + 1, j + 1 =>
      simp only [levCellF]
      rw [ih i (j + 1), ih (i + 1) j, ih i j, ih (i - 1) (j - 1), ih (i + 1 - 3) (j + 1 - 3)]
      have hcost : (if s1.getD i ' ' = s2.getD j ' ' then (0 : ℚ) else 1) =
          (if s2.getD j ' ' = s1.getD i ' ' then (0 : ℚ) else 1) :=
        if_congr eq_comm rfl rfl
      rw [hcost,
        jsMin_comm (levCellF s2 s1 f (j + 1) i + 1) (levCellF s2 s1 f j (i + 1) + 1),
        getPhoneticSimilarity_comm ((s1.drop (i + 1 - 3)).take 3) ((s2.drop (j + 1 - 3)).take 3)]
      have htr : (0 < i ∧ 0 < j ∧ s1.getD i ' ' = s2.getD (j - 1) ' ' ∧
            s1.getD (i - 1) ' ' = s2.getD j ' ') ↔
          (0 < j ∧ 0 < i ∧ s2.getD j ' ' = s1.getD (i - 1) ' ' ∧
            s2.getD (j - 1) ' ' = s1.getD i ' ') := by
        constructor
        · rintro ⟨h1, h2, h3, h4⟩
          exact ⟨h2, h1, h4.symm, h3.symm⟩
        · rintro ⟨h1, h2, h3, h4⟩
          exact ⟨h2, h1, h4.symm, h3.symm⟩
      have hph : ((i + 1) % 3 = 0 ∧ (j + 1) % 3 = 0 ∧ 2 < i + 1 ∧ 2 < j + 1) ↔
          ((j + 1) % 3 = 0 ∧ (i + 1) % 3 = 0 ∧ 2 < j + 1 ∧ 2 < i + 1) := by
        constructor
        · rintro ⟨h1, h2, h3, h4⟩
          exact ⟨h2, h1, h4, h3⟩
        · rintro ⟨h1, h2, h3, h4⟩
          exact ⟨h2, h1, h4, h3⟩
      rw [if_congr htr rfl rfl, if_congr hph rfl rfl]

/-- Claim C5: the distance is symmetric — the empty and identical-string
short circuits, the three variants, the DP recurrence, the transposition
discount and the phonetic adjustment are all symmetric under swapping the
two arguments. -/
theorem C5_distance_symmetric :
    ∀ a b : List Char, calculateLevenshteinDistance a b = calculateLevenshteinDistance b a := by
  intro a b
  simp only [calculateLevenshteinDistance, levCell]
  by_cases h1 : a = [] ∨ b = []
  · rw [if_pos h1, if_pos (Or.symm h1)]
    have : max a.length b.length = max b.length a.length := Nat.max_comm _ _
    rw [this]
  · rw [if_neg h1, if_neg (fun hc => h1 (Or.symm hc))]
    by_cases h2 : a = b
    · rw [if_pos h2, if_pos h2.symm]
    · rw [if_neg h2, if_neg (fun hc => h2 hc.symm)]
      rw [levCellF_symm a b, levCellF_symm (jsToLower a) (jsToLower b),
        levCellF_symm (stripNonAlnum a) (stripNonAlnum b),
        Nat.add_comm a.length b.length,
        Nat.add_comm (jsToLower a).length (jsToLower b).length,
        Nat.add_comm (stripNonAlnum a).length (stripNonAlnum b).length]

end PerfDemo
